import Mathlib

/-!
# Verification of the password wordlist generator

Shallow embedding of `src/Project1/password_strength_wordlist_tool.py`
(the wordlist-generation pipeline: case expansion, leetspeak expansion,
permutation/separator combination, year augmentation, size capping, and
the `generate` driver), together with theorems settling the spec claims.

Python strings are modelled as Lean `String` (ASCII inputs; `str.lower`,
`str.upper`, `str.title` are modelled on ASCII letters, which is exact for
ASCII data and is what the tool's seeds are).  Python sets are modelled
as duplicate-free `List String` values (with `Finset String` for the
set-level statements); the one place where Python's arbitrary
set-iteration order is observable — `list(wl)[:max_size]` at the capping
step — is modelled by passing the runtime enumeration explicitly.
-/

/-- Model of Python `str.lower()` restricted to ASCII case mapping. -/
def pyLower (s : String) : String := ⟨s.data.map Char.toLower⟩

/-- Model of Python `str.upper()` restricted to ASCII case mapping. -/
def pyUpper (s : String) : String := ⟨s.data.map Char.toUpper⟩

/-- Helper for `pyTitle`: the boolean records whether the previous
character was a letter (Python title-cases the first letter of each
maximal letter run and lower-cases the rest). -/
def pyTitleAux : Bool → List Char → List Char
  | _, [] => []
  | prevAlpha, c :: cs =>
    if c.isAlpha then
      (if prevAlpha then c.toLower else c.toUpper) :: pyTitleAux true cs
    else
      c :: pyTitleAux false cs

/-- Model of Python `str.title()` restricted to ASCII. -/
def pyTitle (s : String) : String := ⟨pyTitleAux false s.data⟩

/-- Model of `LEET_MAP.get(c.lower(), [c])` from the source: the list of
alternative characters for `c`, with case-insensitive lookup and the
character itself as the default for unmapped characters (source lines
46–53 and 58). -/
def leetChoices (c : Char) : List Char :=
  if c.toLower = 'a' then ['a', '@', '4']
  else if c.toLower = 'e' then ['e', '3']
  else if c.toLower = 'i' then ['i', '1', '!']
  else if c.toLower = 'o' then ['o', '0']
  else if c.toLower = 's' then ['s', '$', '5']
  else if c.toLower = 't' then ['t', '7']
  else [c]

/-- One iteration of the loop body of `leetspeak_variants` (source line
59): extend every accumulated string by every alternative of the current
character. -/
def stepLeet (vs : List String) (c : Char) : List String :=
  vs.flatMap (fun p => (leetChoices c).map (fun ch => p.push ch))

/-- The list built by the loop of `leetspeak_variants` (source lines
56–59): iterative Cartesian product over the characters of `word`,
starting from `['']`. -/
def leetList (word : String) : List String :=
  word.data.foldl stepLeet [""]

/-- The function `leetspeak_variants(word)` (source lines 55–60): the loop's list,
returned as a set (line 60). -/
def leetspeak_variants (word : String) : Finset String :=
  (leetList word).toFinset

/-- All ways to pick one element out of a list, paired with the remaining
elements (order preserved).  Helper for modelling
`itertools.permutations`. -/
def picks {α : Type} : List α → List (α × List α)
  | [] => []
  | x :: xs => (x, xs) :: (picks xs).map (fun p => (p.1, x :: p.2))

/-- Model of `itertools.permutations(l, n)` (source line 75): all
orderings of `n` elements of `l` drawn at distinct positions.  The
enumeration order differs from CPython's, but the collection of drawn
tuples is the same, which is all the surrounding set construction can
observe. -/
def permsLen {α : Type} : Nat → List α → List (List α)
  | 0, _ => [[]]
  | n + 1, l => (picks l).flatMap (fun p => (permsLen n p.2).map (fun rest => p.1 :: rest))

/-- All strings inserted by the Combiner loops (source lines 74–78):
for each length in `range(1, min(3, len(pool)) + 1)`, every permutation
of that many pool elements is joined with every separator.
`sep.join(combo)` is `String.intercalate sep combo`. -/
def combineList (pool : List String) (separators : List String) : List String :=
  (List.range' 1 (min 3 pool.length)).flatMap (fun n =>
    (permsLen n pool).flatMap (fun combo =>
      separators.map (fun sep => String.intercalate sep combo)))

/-- The Combiner's candidate set `results` (source lines 73–78). -/
def combine (pool : List String) (separators : List String) : Finset String :=
  (combineList pool separators).toFinset

/-- The default separator list of `word_variants` (source line 64). -/
def defaultSeparators : List String := ["", "_", "-", ".", "@"]

/-- Python sets are modelled as duplicate-free `List String` values (the
set is the list's members; `List.dedup` restores the invariant after
every construction, just as Python's `set(...)`/`|=` do).  The order of
such a canonical list is an artifact of the model: CPython's
set-iteration order is arbitrary, and every claim below is stated about
the members, the size, or an explicitly sorted rendering, none of which
depend on it.

Year augmentation (source lines 80–84): for every candidate `r` in a
snapshot of the result set and every year `y`, add `f"{r}{y}"` and
`f"{y}{r}"`.  Years are Python ints, rendered by `toString`. -/
def yearAugmentL (results : List String) (years : List Int) : List String :=
  (results ++ results.flatMap (fun r =>
    years.flatMap (fun y => [r ++ toString y, toString y ++ r]))).dedup

/-- The per-seed variant set `local` (source lines 68–70):
`{w, w.lower(), w.title(), w.upper()}`, with every leetspeak variant of
those four forms unioned in when leet mode is on. -/
def localList (w : String) (leet : Bool) : List String :=
  let l0 : List String := [w, pyLower w, pyTitle w, pyUpper w].dedup
  if leet then (l0 ++ l0.flatMap leetList).dedup else l0

/-- The variant pool `variants` (source lines 66–71): union of `local`
over all base words. -/
def variantsPool (base_words : List String) (leet : Bool) : List String :=
  (base_words.flatMap (fun w => localList w leet)).dedup

/-- The function `word_variants` (source lines 62–86), returning the canonical list
of the produced set.  `years = []` models Python's `years=None` as well
as an empty list (both are falsy at line 80). -/
def word_variants (base_words : List String) (years : List Int)
    (leet : Bool) (append_years : Bool) (separators : List String) : List String :=
  let pool := variantsPool base_words leet
  let results := (combineList pool separators).dedup
  if append_years ∧ years ≠ [] then yearAugmentL results years else results

/-- Strict code-point lexicographic comparison of character lists:
Python's `<` on strings, which is what `sorted` uses. -/
def lexLt : List Char → List Char → Bool
  | [], [] => false
  | [], _ :: _ => true
  | _ :: _, [] => false
  | a :: as, b :: bs => (a.toNat < b.toNat) || (a.toNat = b.toNat && lexLt as bs)

/-- Non-strict code-point lexicographic order on strings. -/
def strLe (a b : String) : Bool := !(lexLt b.data a.data)

/-- Relation form of `strLe`, for `List.insertionSort` and `List.Sorted`. -/
def strLeP (a b : String) : Prop := strLe a b = true

instance : DecidableRel strLeP :=
  fun a b => inferInstanceAs (Decidable (strLe a b = true))

/-- Model of Python `sorted` on a list of strings: ascending in
code-point lexicographic order. -/
def sortStrings (l : List String) : List String :=
  List.insertionSort strLeP l

/-- The size cap (source lines 110–111): `wl = set(list(wl)[:max_size])`,
guarded by `if args.max_size and len(wl) > args.max_size`.  `enum` is the
runtime enumeration `list(wl)` of the candidate set (CPython's set
iteration order, which is arbitrary), so the set itself is
`enum.toFinset` and `len(wl)` is `enum.length` (the enumeration of a set
has no duplicates). -/
def capCandidates (enum : List String) (maxSize : Nat) : Finset String :=
  if maxSize ≠ 0 ∧ maxSize < enum.length then (enum.take maxSize).toFinset
  else enum.toFinset

/-- Model of Python `int(s)` for plain decimal literals: an optional
sign followed by one or more ASCII digits (whitespace and underscore
forms are not needed for this tool's inputs). -/
def pyDigits : List Char → Option Nat
  | [] => none
  | cs =>
    cs.foldl (fun acc c =>
      match acc with
      | none => none
      | some n => if c.isDigit then some (n * 10 + (c.toNat - '0'.toNat)) else none)
      (some 0)

def pyInt (s : String) : Option Int :=
  match s.data with
  | '-' :: rest => (pyDigits rest).map (fun n => -(n : Int))
  | '+' :: rest => (pyDigits rest).map (fun n => (n : Int))
  | cs => (pyDigits cs).map (fun n => (n : Int))

/-- Python `str.split('-')`: cut the character list at every `'-'`,
keeping empty tokens. -/
def splitOnChar (sep : Char) : List Char → List (List Char)
  | [] => [[]]
  | c :: cs =>
    let r := splitOnChar sep cs
    if c = sep then [] :: r
    else
      match r with
      | [] => [[c]]
      | t :: ts => (c :: t) :: ts

/-- Model of `start, end = map(int, args.years.split('-'))` (source line 101):
succeeds exactly when splitting on `'-'` yields two tokens and both
parse as ints; any failure raises and is caught at line 103. -/
def parseYears (s : String) : Option (Int × Int) :=
  match (splitOnChar '-' s.data).map (fun cs => pyInt ⟨cs⟩) with
  | [some a, some b] => some (a, b)
  | _ => none

/-- Model of `list(range(start, end+1))` (source line 102). -/
def yearRange (a b : Int) : List Int :=
  (List.range (b + 1 - a).toNat).map (fun i => a + i)

/-- The CLI arguments of the `generate` subcommand (source lines
128–137).  `maxSize` has CLI default 5000. -/
structure Args where
  name : Option String
  pet : Option String
  birth : Option String
  keyword : Option String
  years : Option String
  leet : Bool
  appendYears : Bool
  maxSize : Nat
  out : Option String

/-- The distinct console messages `generate_wordlist` can print, one
constructor per `print` call in the source (lines 95, 104, 106, 118). -/
inductive Msg where
  | noInputs
  | invalidYearRange
  | generatingVariants (base : List String)
  | generatedCount (n : Nat) (path : String)
deriving DecidableEq

/-- Observable outcome of one `generate_wordlist` run: the printed
messages in order, and the written file (path and full content), if any. -/
structure GenResult where
  messages : List Msg
  written : Option (String × String)

/-- Computation of `base = [str(v) for v in [name, pet, birth, keyword] if v]`
(source lines 89–92): `if val` is Python truthiness, so both absent
options and empty-string arguments are dropped. -/
def seedsOf (a : Args) : List String :=
  ([a.name, a.pet, a.birth, a.keyword].filterMap id).filter (fun s => s ≠ "")

/-- Year-range handling (source lines 98–104): the parsed year list and
whether the invalid-range warning was printed.  The parse is only
attempted under `if args.years:` (line 99), where both an absent option
and an empty string are falsy, so neither triggers the warning. -/
def parsedYears (a : Args) : List Int × Bool :=
  match a.years with
  | none => ([], false)
  | some s =>
    if s = "" then ([], false)
    else
      match parseYears s with
      | some (st, en) => (yearRange st en, false)
      | none => ([], true)

/-- The file-writing loop (source lines 114–116): each word of
`sorted(wl)` is written followed by a newline, onto an initially empty
file. -/
def writeWordlist (wl : List String) : String :=
  (sortStrings wl).foldl (fun acc w => acc ++ (w ++ "\n")) ""

/-- The size cap as it sits in the driver (source lines 110–111), in
list form: `ord` supplies the runtime enumeration `list(wl)` (CPython
set-iteration order is arbitrary — string hashing is salted per process —
so the enumeration is a parameter of the model; a faithful `ord`
produces a permutation of its input), and `set(list(wl)[:max_size])` is
the take followed by `dedup`. -/
def capped (ord : List String → List String) (wl : List String)
    (maxSize : Nat) : List String :=
  if maxSize ≠ 0 ∧ maxSize < wl.length then ((ord wl).take maxSize).dedup else wl

/-- The final candidate list a `generate` run writes: the
`word_variants` output (source lines 106–108) after the size cap
(source lines 110–111). -/
def finalWordlist (ord : List String → List String) (a : Args) : List String :=
  capped ord
    (word_variants (seedsOf a) (if a.appendYears then (parsedYears a).1 else [])
      a.leet a.appendYears defaultSeparators)
    a.maxSize

/-- The driver `generate_wordlist(args)` (source lines 88–118). -/
def generate_wordlist (ord : List String → List String) (a : Args) : GenResult :=
  let base := seedsOf a
  if base = [] then ⟨[Msg.noInputs], none⟩
  else
    let warn : List Msg :=
      if (parsedYears a).2 then [Msg.invalidYearRange] else []
    let wl2 := finalWordlist ord a
    let outPath := match a.out with
      | some s => if s = "" then "wordlist.txt" else s
      | none => "wordlist.txt"
    ⟨warn ++ [Msg.generatingVariants base, Msg.generatedCount wl2.length outPath],
      some (outPath, writeWordlist wl2)⟩

theorem leetChoices_nodup (c : Char) : (leetChoices c).Nodup := by
  unfold leetChoices
  repeat' split
  all_goals first | decide | exact List.nodup_singleton _

theorem push_inj {p q : String} {a b : Char} (h : p.push a = q.push b) :
    p = q ∧ a = b := by
  have hd : p.data ++ [a] = q.data ++ [b] := congrArg String.data h
  have hl : p.data.length = q.data.length := by
    have := congrArg List.length hd
    simpa using this
  obtain ⟨h1, h2⟩ := List.append_inj hd hl
  exact ⟨congrArg String.mk h1, by simpa using h2⟩

theorem stepLeet_length (vs : List String) (c : Char) :
    (stepLeet vs c).length = vs.length * (leetChoices c).length := by
  induction vs with
  | nil => simp [stepLeet]
  | cons p ps ih =>
    simp only [stepLeet, List.flatMap_cons, List.length_append, List.length_map]
    simp only [stepLeet] at ih
    rw [ih, List.length_cons]
    ring

theorem stepLeet_nodup {vs : List String} (c : Char) (h : vs.Nodup) :
    (stepLeet vs c).Nodup := by
  rw [stepLeet, List.nodup_flatMap]
  constructor
  · intro p _
    exact (leetChoices_nodup c).map (fun a b hab => (push_inj hab).2)
  · refine h.imp ?_
    intro p q hpq
    intro x hx hy
    obtain ⟨a, _, rfl⟩ := List.mem_map.1 hx
    obtain ⟨b, _, hb⟩ := List.mem_map.1 hy
    exact hpq (push_inj hb.symm).1

theorem foldl_stepLeet_length (cs : List Char) (vs : List String) :
    (cs.foldl stepLeet vs).length =
      vs.length * (cs.map (fun c => (leetChoices c).length)).prod := by
  induction cs generalizing vs with
  | nil => simp
  | cons c cs ih =>
    simp only [List.foldl_cons, List.map_cons, List.prod_cons]
    rw [ih, stepLeet_length]
    ring

theorem foldl_stepLeet_nodup (cs : List Char) {vs : List String}
    (h : vs.Nodup) : (cs.foldl stepLeet vs).Nodup := by
  induction cs generalizing vs with
  | nil => exact h
  | cons c cs ih => exact ih (stepLeet_nodup c h)

/-- C2: the LeetExpander's output set has size equal to the product, over
each character of the word, of that character's alternative-set size
(characters outside the table contribute 1, via the default `[c]`; the
lookup is case-insensitive, via `c.toLower`), and expanding the empty
string yields the singleton set containing the empty string. -/
theorem leetspeak_variants_card (w : String) :
    (leetspeak_variants w).card =
      (w.data.map (fun c => (leetChoices c).length)).prod ∧
    leetspeak_variants "" = {""} := by
  constructor
  · rw [leetspeak_variants, leetList,
      List.toFinset_card_of_nodup (foldl_stepLeet_nodup w.data (by simp)),
      foldl_stepLeet_length]
    simp
  · rfl

theorem picks_length {α : Type} (l : List α) : (picks l).length = l.length := by
  induction l with
  | nil => rfl
  | cons x xs ih => simp [picks, ih]

theorem picks_snd_length {α : Type} (l : List α) :
    ∀ p ∈ picks l, p.2.length + 1 = l.length := by
  induction l with
  | nil => intro p hp; cases hp
  | cons x xs ih =>
    intro p hp
    simp only [picks, List.mem_cons, List.mem_map] at hp
    rcases hp with rfl | ⟨q, hq, rfl⟩
    · simp
    · simpa using ih q hq

theorem permsLen_length {α : Type} (n : Nat) (l : List α) :
    (permsLen n l).length = l.length.descFactorial n := by
  induction n generalizing l with
  | zero => simp [permsLen]
  | succ n ih =>
    rw [permsLen, List.length_flatMap]
    simp only [Function.comp_def]
    have hmap : (picks l).map (fun p => ((permsLen n p.2).map (fun rest => p.1 :: rest)).length)
        = (picks l).map (fun _ => (l.length - 1).descFactorial n) := by
      apply List.map_congr_left
      intro p hp
      rw [List.length_map, ih]
      have h2 := picks_snd_length l p hp
      have h3 : p.2.length = l.length - 1 := by omega
      rw [h3]
    rw [hmap, List.map_const', List.sum_replicate, smul_eq_mul, picks_length]
    cases l with
    | nil => simp [picks]
    | cons x xs =>
      simp only [List.length_cons, Nat.succ_descFactorial_succ, Nat.add_sub_cancel]

theorem flatMap_length_const {α β : Type} (l : List α) (f : α → List β) (k : Nat)
    (h : ∀ x ∈ l, (f x).length = k) : (l.flatMap f).length = l.length * k := by
  rw [List.length_flatMap]
  simp only [Function.comp_def]
  have hmap : l.map (fun x => (f x).length) = l.map (fun _ => k) :=
    List.map_congr_left h
  rw [hmap, List.map_const', List.sum_replicate, smul_eq_mul]

/-- C1 counterexample: for the pool `["a","b","c"]` (k = 3) and the
separator set `["", "_"]` (s = 2) the claimed exact size
`s * (k + k*(k-1) + k*(k-2)*(k-1)) = 30` is wrong: joining a length-1
permutation with different separators yields the same string, so the
candidate set has only 27 elements. -/
theorem combine_card_counterexample :
    ¬ ((combine ["a", "b", "c"] ["", "_"]).card =
        2 * (3 + 3 * (3 - 1) + 3 * (3 - 2) * (3 - 1))) := by decide

/-- C1 (amended): for a variant pool of size `k` and a separator list of
size `s`, with length cap 3, the Combiner's candidate set has size at
most `s * (k + k*(k-1) + k*(k-2)*(k-1))` — the string joins need not all
be distinct (a length-1 permutation joins to the same string under every
separator), so the set can be strictly smaller than this count.  For
`k < 3` the terms for the unavailable lengths vanish, so the bound needs
no side condition. -/
theorem combine_card_le (pool separators : List String) :
    (combine pool separators).card ≤
      separators.length *
        (pool.length + pool.length * (pool.length - 1) +
          pool.length * (pool.length - 2) * (pool.length - 1)) := by
  have hinner : ∀ n : Nat,
      ((permsLen n pool).flatMap (fun combo =>
        separators.map (fun sep => String.intercalate sep combo))).length
      = pool.length.descFactorial n * separators.length := by
    intro n
    rw [flatMap_length_const _ _ separators.length (fun combo _ => by simp),
      permsLen_length]
  simp only [combine]
  refine le_trans (List.toFinset_card_le _) ?_
  rw [combineList]
  rcases hk : pool.length with _ | _ | _ | n
  · simp
  · rw [hk] at hinner
    have hr : List.range' 1 (3 ⊓ (0 + 1)) = [1] := rfl
    rw [hr]
    simp only [List.flatMap_cons, List.flatMap_nil, List.length_append,
      List.length_nil, hinner]
    simp [Nat.descFactorial]
  · rw [hk] at hinner
    have hr : List.range' 1 (3 ⊓ (0 + 1 + 1)) = [1, 2] := rfl
    rw [hr]
    simp only [List.flatMap_cons, List.flatMap_nil, List.length_append,
      List.length_nil, hinner]
    simp [Nat.descFactorial]
    omega
  · rw [hk] at hinner
    have h3 : 3 ≤ n + 1 + 1 + 1 := by omega
    rw [Nat.min_eq_left h3]
    have hr : List.range' 1 3 = [1, 2, 3] := rfl
    rw [hr]
    simp only [List.flatMap_cons, List.flatMap_nil, List.length_append,
      List.length_nil, hinner]
    simp only [Nat.descFactorial_succ, Nat.descFactorial_zero, Nat.sub_zero,
      Nat.mul_one, Nat.add_zero]
    have e1 : n + 1 + 1 + 1 - 1 = n + 1 + 1 := by omega
    have e2 : n + 1 + 1 + 1 - 2 = n + 1 := by omega
    simp only [e1, e2]
    refine le_of_eq ?_
    ring

theorem char_toNat_inj {a b : Char} (h : a.toNat = b.toNat) : a = b := by
  have hv : a.val = b.val := UInt32.toNat.inj h
  exact Char.ext hv

theorem lexLt_trans (a : List Char) : ∀ b c : List Char,
    lexLt a b = true → lexLt b c = true → lexLt a c = true := by
  induction a with
  | nil =>
    intro b c hab hbc
    cases b with
    | nil => simp [lexLt] at hab
    | cons y ys =>
      cases c with
      | nil => simp [lexLt] at hbc
      | cons z zs => simp [lexLt]
  | cons x xs ih =>
    intro b c hab hbc
    cases b with
    | nil => simp [lexLt] at hab
    | cons y ys =>
      cases c with
      | nil => simp [lexLt] at hbc
      | cons z zs =>
        simp only [lexLt, Bool.or_eq_true, Bool.and_eq_true, decide_eq_true_eq] at hab hbc ⊢
        rcases hab with h1 | ⟨h1, h1r⟩ <;> rcases hbc with h2 | ⟨h2, h2r⟩
        · exact Or.inl (by omega)
        · exact Or.inl (by omega)
        · exact Or.inl (by omega)
        · exact Or.inr ⟨by omega, ih ys zs h1r h2r⟩

theorem lexLt_antisymm (a : List Char) : ∀ b : List Char,
    lexLt a b = false → lexLt b a = false → a = b := by
  induction a with
  | nil =>
    intro b hab _
    cases b with
    | nil => rfl
    | cons y ys => simp [lexLt] at hab
  | cons x xs ih =>
    intro b hab hba
    cases b with
    | nil => simp [lexLt] at hba
    | cons y ys =>
      simp only [lexLt, Bool.or_eq_false_iff, Bool.and_eq_false_iff,
        decide_eq_false_iff_not] at hab hba
      obtain ⟨hab1, hab2⟩ := hab
      obtain ⟨hba1, hba2⟩ := hba
      have hxy : x.toNat = y.toNat := by omega
      have hx : x = y := char_toNat_inj hxy
      subst hx
      rcases hab2 with h | h
      · omega
      · rcases hba2 with h' | h'
        · omega
        · exact congrArg (x :: ·) (ih ys (by simpa using h) (by simpa using h'))

theorem lexLt_asymm (a : List Char) : ∀ b : List Char,
    lexLt a b = true → lexLt b a = false := by
  induction a with
  | nil =>
    intro b hab
    cases b with
    | nil => simp [lexLt] at hab
    | cons y ys => simp [lexLt]
  | cons x xs ih =>
    intro b hab
    cases b with
    | nil => simp [lexLt] at hab
    | cons y ys =>
      simp only [lexLt, Bool.or_eq_true, Bool.and_eq_true, decide_eq_true_eq] at hab
      simp only [lexLt, Bool.or_eq_false_iff, Bool.and_eq_false_iff,
        decide_eq_false_iff_not]
      rcases hab with h | ⟨h, hr⟩
      · exact ⟨by omega, Or.inl (by omega)⟩
      · exact ⟨by omega, Or.inr (by simpa using ih ys hr)⟩

theorem strLeP_total (a b : String) : strLeP a b ∨ strLeP b a := by
  simp only [strLeP, strLe, Bool.not_eq_true']
  by_cases h : lexLt b.data a.data = true
  · exact Or.inr (lexLt_asymm _ _ h)
  · exact Or.inl (by simpa using h)

theorem strLeP_trans (a b c : String) (hab : strLeP a b) (hbc : strLeP b c) :
    strLeP a c := by
  simp only [strLeP, strLe, Bool.not_eq_true'] at hab hbc ⊢
  by_cases hca : lexLt c.data a.data = true
  · by_cases hbclt : lexLt b.data c.data = true
    · have := lexLt_trans _ _ _ hbclt hca
      rw [this] at hab
      cases hab
    · have hbc2 : b.data = c.data :=
        lexLt_antisymm _ _ (by simpa using hbclt) hbc
      rw [← hbc2] at hca
      rw [hca] at hab
      cases hab
  · simpa using hca

theorem strLeP_antisymm (a b : String) (hab : strLeP a b) (hba : strLeP b a) :
    a = b := by
  simp only [strLeP, strLe, Bool.not_eq_true'] at hab hba
  exact String.toList_inj.mp (lexLt_antisymm _ _ hba hab)

instance : IsTotal String strLeP := ⟨strLeP_total⟩

instance : IsTrans String strLeP := ⟨strLeP_trans⟩

instance : IsAntisymm String strLeP := ⟨strLeP_antisymm⟩

/-- C3: the cap `set(list(wl)[:max_size])` keeps the first `max_size`
elements of the runtime set-iteration order, which is not a function of
the set: two enumerations of the same two-element set `{"a","b"}`, with
maximum 1, keep different subsets.  (CPython string hashing is salted
per process, so different runs do present different orders.) -/
theorem capCandidates_order_dependent :
    (["a", "b"] : List String).toFinset = (["b", "a"] : List String).toFinset ∧
    capCandidates ["a", "b"] 1 ≠ capCandidates ["b", "a"] 1 := by decide

/-- C4 counterexample: with `--max-size 0` the guard
`if args.max_size and ...` is falsy, so the cap is skipped and the output
size is the input size, not `min(inputSize, 0) = 0`. -/
theorem capCandidates_zero_counterexample :
    ¬ ((capCandidates ["a"] 0).card = min (["a"] : List String).length 0) := by
  decide

/-- C4 (amended): for every duplicate-free input enumeration and every
maximum size `m ≥ 1`, the cap's output size is `min(inputSize, m)` (the
set passes through unchanged when at or below the maximum); for `m = 0`
the cap is disabled and the set passes through unchanged; and for every
`m`, applying the cap again to (any duplicate-free enumeration of) its
own output changes nothing. -/
theorem capCandidates_spec (enum : List String) (m : Nat) (hnd : enum.Nodup) :
    (1 ≤ m → (capCandidates enum m).card = min enum.length m) ∧
    capCandidates enum 0 = enum.toFinset ∧
    (∀ enum2 : List String, enum2.Nodup → enum2.toFinset = capCandidates enum m →
      capCandidates enum2 m = capCandidates enum m) := by
  refine ⟨?_, ?_, ?_⟩
  · intro hm
    by_cases hlt : m < enum.length
    · have hcond : m ≠ 0 ∧ m < enum.length := ⟨by omega, hlt⟩
      rw [capCandidates, if_pos hcond,
        List.toFinset_card_of_nodup (hnd.sublist (List.take_sublist m enum)),
        List.length_take]
      omega
    · have hcond : ¬ (m ≠ 0 ∧ m < enum.length) := by tauto
      rw [capCandidates, if_neg hcond, List.toFinset_card_of_nodup hnd]
      omega
  · have hcond : ¬ ((0 : Nat) ≠ 0 ∧ (0 : Nat) < enum.length) := by omega
    rw [capCandidates, if_neg hcond]
  · intro enum2 h2 he2
    by_cases hm0 : m = 0
    · subst hm0
      have hcond : ¬ ((0 : Nat) ≠ 0 ∧ (0 : Nat) < enum2.length) := by omega
      rw [capCandidates, if_neg hcond, he2]
    · have hle : (capCandidates enum m).card ≤ m := by
        by_cases hlt : m < enum.length
        · rw [capCandidates, if_pos ⟨hm0, hlt⟩]
          refine le_trans (List.toFinset_card_le _) ?_
          rw [List.length_take]
          omega
        · rw [capCandidates, if_neg (by tauto)]
          refine le_trans (List.toFinset_card_le _) ?_
          omega
      have hlen2 : enum2.length ≤ m := by
        have : enum2.toFinset.card = enum2.length := List.toFinset_card_of_nodup h2
        rw [he2] at this
        omega
      have hcond : ¬ (m ≠ 0 ∧ m < enum2.length) := by omega
      rw [capCandidates, if_neg hcond, he2]

/-- Witness for `capCandidates_spec`: capping the two-element enumeration
`["a","b"]` at maximum 1 yields a set of size `min 2 1 = 1`. -/
theorem capCandidates_spec_witness :
    (capCandidates ["a", "b"] 1).card = min (["a", "b"] : List String).length 1 :=
  (capCandidates_spec ["a", "b"] 1 (by decide)).1 (by decide)

/-- C5: for a duplicate-free candidate list of size `C` and a year list
of `Y` years, year augmentation produces a set of size at most
`C * (1 + 2*Y)`, and every string added by augmentation (present in the
result but not in the input) is the decimal rendering of a year from the
list appended to a candidate or put in front of one, i.e. it ends or
starts with that year's decimal rendering. -/
theorem yearAugmentL_spec (R : List String) (ys : List Int) (_hR : R.Nodup) :
    (yearAugmentL R ys).length ≤ R.length * (1 + 2 * ys.length) ∧
    (∀ s ∈ yearAugmentL R ys, s ∉ R →
      ∃ y ∈ ys, (∃ t, s = t ++ toString y) ∨ (∃ t, s = toString y ++ t)) := by
  constructor
  · refine le_trans (List.Sublist.length_le (List.dedup_sublist _)) ?_
    rw [List.length_append]
    rw [flatMap_length_const _ _ (2 * ys.length) (fun r _ => by
      rw [flatMap_length_const _ _ 2 (fun y _ => by simp)]
      ring)]
    refine le_of_eq ?_
    ring
  · intro s hs hsR
    rw [yearAugmentL, List.mem_dedup, List.mem_append] at hs
    rcases hs with h | h
    · exact absurd h hsR
    · rw [List.mem_flatMap] at h
      obtain ⟨r, _, hmem⟩ := h
      rw [List.mem_flatMap] at hmem
      obtain ⟨y, hy, hmem2⟩ := hmem
      simp only [List.mem_cons, List.not_mem_nil, or_false] at hmem2
      refine ⟨y, hy, ?_⟩
      rcases hmem2 with h1 | h1
      · exact Or.inl ⟨r, h1⟩
      · exact Or.inr ⟨r, h1⟩

/-- Witness for `yearAugmentL_spec`: augmenting the set `{"w"}` with the
year 2020 adds `"w2020"`, which ends with `"2020"`. -/
theorem yearAugmentL_spec_witness :
    ∃ y ∈ [(2020 : Int)],
      (∃ t, "w2020" = t ++ toString y) ∨ (∃ t, "w2020" = toString y ++ t) :=
  (yearAugmentL_spec ["w"] [2020] (by decide)).2 "w2020" (by decide) (by decide)

/-- C8: when none of `--name`, `--pet`, `--birth`, `--keyword` is
supplied, `generate` prints only the no-inputs message, writes no file,
and returns normally. -/
theorem generate_no_seeds (ord : List String → List String)
    (ys : Option String) (leet ay : Bool) (ms : Nat) (out : Option String) :
    generate_wordlist ord ⟨none, none, none, none, ys, leet, ay, ms, out⟩ =
      ⟨[Msg.noInputs], none⟩ := rfl

/-- C6 counterexample: `--years ""` is not of the form `start-end` — the
parse would fail — yet `if args.years:` (line 99) is falsy for the empty
string, so the program never attempts the parse and prints no warning.
So the claim "if the `--years` argument fails to parse ... generate
prints a warning" is false at `--name 1 --years ""`. -/
theorem generate_empty_years_counterexample :
    parseYears "" = none ∧
    Msg.invalidYearRange ∉ (generate_wordlist id
      ⟨some "1", none, none, none, some "", false, false, 5000, none⟩).messages := by
  decide

/-- C6 (amended): if `--years` is supplied non-empty (so the truthiness
guard `if args.years:` lets the parse run) and fails to parse, `generate`
prints the invalid-year-range warning, skips year augmentation, and
still writes the wordlist file (generation completes; the failure is
non-fatal). -/
theorem generate_invalid_years (ord : List String → List String) (a : Args)
    (hbase : seedsOf a ≠ []) (ys : String) (hys : a.years = some ys)
    (hys0 : ys ≠ "") (hparse : parseYears ys = none) :
    Msg.invalidYearRange ∈ (generate_wordlist ord a).messages ∧
    (generate_wordlist ord a).written ≠ none := by
  have hp : parsedYears a = ([], true) := by
    simp [parsedYears, hys, hys0, hparse]
  simp only [generate_wordlist]
  rw [if_neg hbase]
  simp [hp]

/-- Witness for `generate_invalid_years`: `--name 1 --years abc`. -/
theorem generate_invalid_years_witness :
    Msg.invalidYearRange ∈ (generate_wordlist id
      ⟨some "1", none, none, none, some "abc", false, false, 5000, none⟩).messages ∧
    (generate_wordlist id
      ⟨some "1", none, none, none, some "abc", false, false, 5000, none⟩).written ≠
      none :=
  generate_invalid_years id _ (by decide) "abc" rfl (by decide) (by decide)

/-- C9: if `--years` parses as `start-end` with `start > end`, the year
list `range(start, end+1)` is empty, so augmentation is silently
skipped: no invalid-range warning is printed and the run is identical to
one without `--years` at all. -/
theorem generate_inverted_year_range (ord : List String → List String)
    (a : Args) (ys : String) (st en : Int) (hys : a.years = some ys)
    (hp : parseYears ys = some (st, en)) (hlt : en < st) :
    generate_wordlist ord a = generate_wordlist ord { a with years := none } ∧
    Msg.invalidYearRange ∉ (generate_wordlist ord a).messages := by
  have hyr : yearRange st en = [] := by
    rw [yearRange]
    have h0 : (en + 1 - st).toNat = 0 := by omega
    rw [h0]
    rfl
  have hne : ys ≠ "" := by
    intro h
    have h0 : parseYears "" = none := by decide
    rw [h, h0] at hp
    cases hp
  have hpa : parsedYears a = ([], false) := by
    simp [parsedYears, hys, hne, hp, hyr]
  have hpa2 : parsedYears { a with years := none } = ([], false) := rfl
  have hseeds : seedsOf { a with years := none } = seedsOf a := rfl
  have hfw : finalWordlist ord a = finalWordlist ord { a with years := none } := by
    simp [finalWordlist, hpa, hpa2, hseeds]
  constructor
  · by_cases hb : seedsOf a = []
    · simp [generate_wordlist, hb, hseeds]
    · simp [generate_wordlist, hb, hseeds, hpa, hpa2, hfw]
  · by_cases hb : seedsOf a = []
    · simp [generate_wordlist, hb]
    · simp [generate_wordlist, hb, hpa]

/-- Witness for `generate_inverted_year_range`:
`--name 1 --years 5-3 --append-years`. -/
theorem generate_inverted_year_range_witness :
    generate_wordlist id
        ⟨some "1", none, none, none, some "5-3", false, true, 5000, none⟩ =
      generate_wordlist id
        ⟨some "1", none, none, none, none, false, true, 5000, none⟩ ∧
    Msg.invalidYearRange ∉ (generate_wordlist id
      ⟨some "1", none, none, none, some "5-3", false, true, 5000, none⟩).messages :=
  generate_inverted_year_range id _ "5-3" 5 3 rfl (by decide) (by decide)

theorem intercalate_single (sep v : String) : String.intercalate sep [v] = v := by
  simp [String.intercalate, String.intercalate.go]

theorem mem_localList (w : String) (leet : Bool) (x : String)
    (hx : x ∈ [w, pyLower w, pyTitle w, pyUpper w]) : x ∈ localList w leet := by
  simp only [localList]
  split
  · rw [List.mem_dedup]
    exact List.mem_append_left _ (List.mem_dedup.mpr hx)
  · exact List.mem_dedup.mpr hx

theorem mem_variantsPool {base : List String} {leet : Bool} {w x : String}
    (hw : w ∈ base) (hx : x ∈ localList w leet) : x ∈ variantsPool base leet := by
  rw [variantsPool, List.mem_dedup, List.mem_flatMap]
  exact ⟨w, hw, hx⟩

theorem picks_mem_fst {α : Type} {v : α} {l : List α} (hv : v ∈ l) :
    ∃ rest, (v, rest) ∈ picks l := by
  induction l with
  | nil => cases hv
  | cons x xs ih =>
    rcases List.mem_cons.mp hv with rfl | h
    · exact ⟨xs, List.mem_cons_self _ _⟩
    · obtain ⟨rest, hrest⟩ := ih h
      exact ⟨x :: rest, List.mem_cons_of_mem _ (List.mem_map.mpr ⟨(v, rest), hrest, rfl⟩)⟩

theorem mem_combineList_single {pool seps : List String} {v sep : String}
    (hv : v ∈ pool) (hsep : sep ∈ seps) : v ∈ combineList pool seps := by
  rw [combineList, List.mem_flatMap]
  refine ⟨1, ?_, ?_⟩
  · have hlen : 1 ≤ pool.length := List.length_pos.mpr (List.ne_nil_of_mem hv)
    rcases hn : min 3 pool.length with _ | n
    · omega
    · rw [List.range'_succ]
      exact List.mem_cons_self _ _
  · rw [List.mem_flatMap]
    refine ⟨[v], ?_, ?_⟩
    · obtain ⟨rest, hrest⟩ := picks_mem_fst hv
      rw [permsLen, List.mem_flatMap]
      exact ⟨(v, rest), hrest, by simp [permsLen]⟩
    · rw [List.mem_map]
      exact ⟨sep, hsep, intercalate_single sep v⟩

theorem mem_word_variants_of_pool {base : List String} {years : List Int}
    {leet ay : Bool} {x : String} (hx : x ∈ variantsPool base leet) :
    x ∈ word_variants base years leet ay defaultSeparators := by
  have hres : x ∈ (combineList (variantsPool base leet) defaultSeparators).dedup := by
    rw [List.mem_dedup]
    exact mem_combineList_single hx (show "" ∈ defaultSeparators by decide)
  simp only [word_variants]
  split
  · rw [yearAugmentL, List.mem_dedup]
    exact List.mem_append_left _ hres
  · exact hres

/-- C10: every supplied base word appears in the generated candidate
list in all four case forms — the word itself, its `lower()`, its
`title()` and its `upper()` — because each pool element is itself a
length-1 combination. -/
theorem word_variants_contains_case_forms (base : List String)
    (years : List Int) (leet ay : Bool) (w : String) (hw : w ∈ base) :
    w ∈ word_variants base years leet ay defaultSeparators ∧
    pyLower w ∈ word_variants base years leet ay defaultSeparators ∧
    pyTitle w ∈ word_variants base years leet ay defaultSeparators ∧
    pyUpper w ∈ word_variants base years leet ay defaultSeparators := by
  refine ⟨?_, ?_, ?_, ?_⟩ <;>
    exact mem_word_variants_of_pool (mem_variantsPool hw (mem_localList _ _ _ (by simp)))

/-- Witness for `word_variants_contains_case_forms` at the single seed
`"ab"`. -/
theorem word_variants_contains_case_forms_witness :
    "ab" ∈ word_variants ["ab"] [] false false defaultSeparators ∧
    pyLower "ab" ∈ word_variants ["ab"] [] false false defaultSeparators ∧
    pyTitle "ab" ∈ word_variants ["ab"] [] false false defaultSeparators ∧
    pyUpper "ab" ∈ word_variants ["ab"] [] false false defaultSeparators :=
  word_variants_contains_case_forms ["ab"] [] false false "ab" (by decide)

theorem writeWordlist_eq_join (l : List String) :
    writeWordlist l = String.join ((sortStrings l).map (fun w => w ++ "\n")) := by
  rw [writeWordlist, String.join, List.foldl_map]

theorem sortStrings_sorted (l : List String) :
    List.Sorted strLeP (sortStrings l) :=
  List.sorted_insertionSort strLeP l

theorem sortStrings_nodup {l : List String} (h : l.Nodup) :
    (sortStrings l).Nodup :=
  (List.perm_insertionSort strLeP l).nodup_iff.mpr h

theorem capped_nodup (ord : List String → List String) {wl : List String}
    (m : Nat) (h : wl.Nodup) : (capped ord wl m).Nodup := by
  rw [capped]
  split
  · exact List.nodup_dedup _
  · exact h

theorem word_variants_nodup (base : List String) (years : List Int)
    (leet ay : Bool) (seps : List String) :
    (word_variants base years leet ay seps).Nodup := by
  simp only [word_variants]
  split
  · rw [yearAugmentL]
    exact List.nodup_dedup _
  · exact List.nodup_dedup _

/-- C7: whenever `generate` writes a file, its content is exactly the
concatenation of one block `word ++ "\n"` per candidate — so each word
is followed by a newline and nothing follows the last newline — with the
words in ascending code-point lexicographic order and no word repeated. -/
theorem generate_file_format (ord : List String → List String) (a : Args)
    (p c : String) (h : (generate_wordlist ord a).written = some (p, c)) :
    ∃ ws : List String, c = String.join (ws.map (fun w => w ++ "\n")) ∧
      List.Sorted strLeP ws ∧ ws.Nodup ∧
      ws.toFinset = (finalWordlist ord a).toFinset := by
  by_cases hb : seedsOf a = []
  · simp [generate_wordlist, hb] at h
  · simp only [generate_wordlist, if_neg hb, Option.some.injEq, Prod.mk.injEq] at h
    obtain ⟨-, hc⟩ := h
    subst hc
    have hnd : (finalWordlist ord a).Nodup :=
      capped_nodup ord _ (word_variants_nodup _ _ _ _ _)
    exact ⟨_, writeWordlist_eq_join _, sortStrings_sorted _, sortStrings_nodup hnd,
      List.toFinset_eq_of_perm _ _ (List.perm_insertionSort strLeP _)⟩

/-- Witness for `generate_file_format`: `--name 1` writes
`wordlist.txt` containing the single line `"1\n"`. -/
theorem generate_file_format_witness :
    ∃ ws : List String, "1\n" = String.join (ws.map (fun w => w ++ "\n")) ∧
      List.Sorted strLeP ws ∧ ws.Nodup ∧
      ws.toFinset = (finalWordlist id
        ⟨some "1", none, none, none, none, false, false, 5000, none⟩).toFinset :=
  generate_file_format id
    ⟨some "1", none, none, none, none, false, false, 5000, none⟩
    "wordlist.txt" "1\n" (by decide)
